import Mathlib

/-!
Verification development for the http-aware-forms library (`http-aware.js`).

The JavaScript source is shallowly embedded below.  Strings are Lean
`String`s (lists of characters); the four sequential global-regex
`String.replace` passes of `RequestHeader.interpolate` are embedded as
character-list scanners with the exact JavaScript regex semantics
(leftmost match, greedy runs, continue after the match, replacement text
not rescanned).  The mutable static formatter registry
(`HTTPAwareForm.formatters`, which the core ships empty) is a parameter
`reg : FmtReg`; host-DOM machinery (document traversal, `FormData`
snapshotting, URL string parsing, network transport, navigation) is
represented by explicit data: a `request-header` element carries its
already-restricted value map, a form carries its control list, and
`buildRequest` receives the already-parsed effective action URL.
-/

/-- Formatter registry: the shallow embedding of the mutable
`HTTPAwareForm.formatters` object (`http-aware.js` line 47, shipped empty).
`reg name = some f` means a formatter named `name` is registered; `f` gets
the raw value and the comma-split trimmed argument list. -/
def FmtReg : Type := String → Option (String → List String → String)

/-- The empty registry: `static formatters = {}` as the core ships it. -/
def emptyReg : FmtReg := fun _ => none

/-- Character class `[a-zA-Z_]`, the first character of a placeholder
identifier in the regex on line 33 of `http-aware.js`. -/
def isIdStart (c : Char) : Bool := c.isAlpha || c = '_'

/-- Character class `[a-zA-Z0-9_-]`, the identifier continuation class of
the placeholder regex on line 33. -/
def isIdChar (c : Char) : Bool := c.isAlphanum || c = '_' || c = '-'

/-- Character class `\w` of the format-spec regex on line 51. -/
def isWordChar (c : Char) : Bool := c.isAlphanum || c = '_'

/-- JavaScript `\s` on the characters this code base can produce. -/
def jsWhitespace (c : Char) : Bool :=
  c = ' ' || c = '\t' || c = '\n' || c = '\r' || c = '\x0b' || c = '\x0c'

/-- Character class `[a-zA-Z_-]` of the suppression regex on line 41. -/
def isKeyChar (c : Char) : Bool := c.isAlpha || c = '_' || c = '-'

/-- Sentinel `"\x00O\x00"` standing for an escaped opening brace
(`interpolate`, line 32). -/
def sentO : List Char := ['\x00', 'O', '\x00']

/-- Sentinel `"\x00C\x00"` standing for an escaped closing brace
(`interpolate`, line 32). -/
def sentC : List Char := ['\x00', 'C', '\x00']

/-- Global replacement of a fixed two-character pattern `a b` by `repl`:
the semantics of JavaScript `str.replace(/ab/g, repl)` for a literal
two-character pattern (scan left to right, on a match continue after it). -/
def replacePair2 (a b : Char) (repl : List Char) : List Char → List Char
  | x :: y :: rest =>
    if x = a ∧ y = b then repl ++ replacePair2 a b repl rest
    else x :: replacePair2 a b repl (y :: rest)
  | l => l

/-- Global replacement of a fixed three-character pattern `a b c` by
`repl`, used for restoring the brace sentinels (`interpolate`, line 36). -/
def replaceTriple (a b c : Char) (repl : List Char) : List Char → List Char
  | x :: y :: z :: rest =>
    if x = a ∧ y = b ∧ z = c then repl ++ replaceTriple a b c repl rest
    else x :: replaceTriple a b c repl (y :: z :: rest)
  | l => l

/-- Attempt to match the placeholder regex
`\{([a-zA-Z_][a-zA-Z0-9_-]*)(?:,([^}]+))?\}` (line 33) at an opening
brace; the argument is the character list after the `\x7b`.  Returns the
identifier, the optional format spec, and the remainder after the
closing `\x7d`.  Since the identifier class excludes `,` and `\x7d` and the
format class excludes `\x7d`, JavaScript backtracking never shortens the
greedy runs, so maximal-run matching is exact. -/
def matchPlaceholder : List Char → Option (List Char × Option (List Char) × List Char)
  | [] => none
  | c :: rest =>
    if isIdStart c then
      let name := c :: rest.takeWhile isIdChar
      match rest.dropWhile isIdChar with
      | '\x7d' :: r => some (name, none, r)
      | ',' :: r2 =>
        let fmtRun := r2.takeWhile (fun ch => ch ≠ '\x7d')
        match r2.dropWhile (fun ch => ch ≠ '\x7d') with
        | '\x7d' :: r3 => if fmtRun.isEmpty then none else some (name, some fmtRun, r3)
        | _ => none
      | _ => none
    else none

/-- Lookup in a JavaScript object built by `Object.fromEntries`
(`RequestHeader.values`, lines 24-29): later entries for the same key
overwrite earlier ones, so the last binding wins. -/
def objGet (values : List (String × String)) (k : String) : Option String :=
  values.foldl (fun acc p => if p.1 = k then some p.2 else acc) none

/-- Parse a format spec with the anchored regex `^(\w+)(?:\(([^)]*)\))?$`
(`formatValue`, line 51), returning the formatter name and the comma-split,
trimmed argument list (`m?.[2]?.split(',').map(a => a.trim()) ?? []`). -/
def parseFormatSpec (s : String) : Option (String × List String) :=
  let nameRun := s.data.takeWhile isWordChar
  if nameRun.isEmpty then none
  else
    match s.data.dropWhile isWordChar with
    | [] => some (String.mk nameRun, [])
    | '(' :: r =>
      let argRun := r.takeWhile (fun ch => ch ≠ ')')
      match r.dropWhile (fun ch => ch ≠ ')') with
      | [')'] => some (String.mk nameRun, ((String.mk argRun).splitOn ",").map String.trim)
      | _ => none
    | _ => none

/-- `HTTPAwareForm.formatValue` (lines 49-53): resolve the format spec
against the registry; on a missing spec, an unparsable spec, or an
unregistered formatter name, fall back to stringifying the raw value
(which for a string value is the value itself). -/
def formatValue (reg : FmtReg) (value : String) (formatSpec : Option String) : String :=
  match formatSpec with
  | none => value
  | some s =>
    match parseFormatSpec s with
    | none => value
    | some (name, args) =>
      match reg name with
      | none => value
      | some f => f value args

/-- The source text of a matched placeholder, rebuilt exactly as the regex
consumed it; this is what the callback returns for a missing identifier
(`match` on line 34). -/
def placeholderText (name : List Char) (fmtO : Option (List Char)) : List Char :=
  '\x7b' :: (name ++ (match fmtO with | none => [] | some f => ',' :: f) ++ ['\x7d'])

/-- Fuelled scanner for the placeholder-substitution pass (the second
`replace` of `interpolate`, lines 33-35).  The fuel only bounds recursion
depth; it is always called with fuel at least the list length, and each
step consumes at least one character, so the `0` fallback is never hit. -/
def substPassF (reg : FmtReg) (values : List (String × String)) : Nat → List Char → List Char
  | _, [] => []
  | 0, l => l
  | fuel + 1, c :: rest =>
    if c = '\x7b' then
      match matchPlaceholder rest with
      | some (name, fmtO, r) =>
        (match objGet values (String.mk name) with
         | some v => (formatValue reg v (fmtO.map String.mk)).data
         | none => placeholderText name fmtO) ++ substPassF reg values fuel r
      | none => c :: substPassF reg values fuel rest
    else c :: substPassF reg values fuel rest

/-- The placeholder-substitution pass at adequate fuel. -/
def substPass (reg : FmtReg) (values : List (String × String)) (l : List Char) : List Char :=
  substPassF reg values l.length l

/-- `RequestHeader.interpolate` (lines 31-37): protect `\x7b\x7b` and `\x7d\x7d`
with sentinels, substitute placeholders, restore the sentinels as literal
braces. -/
def interpolate (reg : FmtReg) (template : String) (values : List (String × String)) : String :=
  String.mk
    (replaceTriple '\x00' 'C' '\x00' ['\x7d']
      (replaceTriple '\x00' 'O' '\x00' ['\x7b']
        (substPass reg values
          (replacePair2 '\x7d' '\x7d' sentC
            (replacePair2 '\x7b' '\x7b' sentO template.data)))))

/-- Test of the suppression regex `^[a-zA-Z_-]+=\s*$` (line 41).  The key
class excludes `=`, so the greedy key run is maximal and backtracking is
vacuous. -/
def suppressMatch (s : String) : Bool :=
  match s.data.dropWhile isKeyChar with
  | '=' :: rest => !(s.data.takeWhile isKeyChar).isEmpty && rest.all jsWhitespace
  | _ => false

/-- A `request-header` fieldset element.  `header` and `template` model the
`header` and `value` attributes (both `getAttribute(..) || ''`, lines
14-16); `values` models the `values` getter (lines 24-29): the submission
form-data snapshot already restricted to this declaration's bound field
names, with later duplicate names overwriting earlier ones; `id` is the
element's id attribute, referenced by `for=` links. -/
structure RH where
  id : String := ""
  header : String
  template : String
  values : List (String × String) := []
deriving DecidableEq, Repr

/-- `RequestHeader.computeValue` (lines 39-42): interpolate, then suppress
a result that is a bare `key=` followed only by whitespace (or empty) down
to the empty string. -/
def computeValue (reg : FmtReg) (rh : RH) : String :=
  let result := interpolate reg rh.template rh.values
  if result ≠ "" ∧ suppressMatch result = false then result else ""

/-- JavaScript `toLowerCase` on the characters header names use
(character-wise ASCII lowering). -/
def jsToLower (s : String) : String := String.mk (s.data.map Char.toLower)

/-- JavaScript `toUpperCase` on the characters method names use
(character-wise ASCII raising). -/
def jsToUpper (s : String) : String := String.mk (s.data.map Char.toUpper)

/-- The fixed combinable-header set `COMBINABLE_HEADERS`
(`http-aware.js` lines 4-9). -/
def COMBINABLE_HEADERS : List String :=
  ["accept", "accept-charset", "accept-encoding", "accept-language",
   "cache-control", "connection", "content-encoding", "expect",
   "if-match", "if-none-match", "prefer", "te", "trailer",
   "transfer-encoding", "upgrade", "via", "warning", "link"]

/-- Lookup in an association list by key: `Map.get` semantics (first and
only entry for a key, since `mapSet` keeps keys unique). -/
def assocGet {α : Type} (m : List (String × α)) (k : String) : Option α :=
  (m.find? (fun p => p.1 == k)).map Prod.snd

/-- JavaScript `Map.set`: updating an existing key keeps its original
insertion position; a new key is appended. -/
def mapSet {α : Type} (m : List (String × α)) (k : String) (v : α) : List (String × α) :=
  if m.any (fun p => p.1 == k) then m.map (fun p => if p.1 == k then (k, v) else p)
  else m ++ [(k, v)]

/-- JavaScript `Array.prototype.join(', ')`. -/
def joinComma : List String → String
  | [] => ""
  | [x] => x
  | x :: rest => x ++ ", " ++ joinComma rest

/-- Loop body of `HTTPAwareForm.collectHeaders` (lines 72-76): for each
`request-header` element in document order, skip it if its lowercased
header name is empty, otherwise set the ordered map's entry for that name
to the previous segment list extended by this element's computed value
when the name is combinable, or to the one-element list of the computed
value when it is not. -/
def collectHeadersAux (reg : FmtReg) (m : List (String × List String)) : List RH → List (String × List String)
  | [] => m
  | el :: rest =>
    if (jsToLower el.header) = "" then collectHeadersAux reg m rest
    else
      collectHeadersAux reg
        (mapSet m (jsToLower el.header)
          ((if (jsToLower el.header) ∈ COMBINABLE_HEADERS
            then (assocGet m (jsToLower el.header)).getD [] else [])
           ++ [computeValue reg el]))
        rest

/-- `HTTPAwareForm.collectHeaders` (lines 69-80): aggregate the
declarations, then render each entry by dropping empty segments (the
values are strings, so the JavaScript filter `x => x || x === 0` keeps
exactly the non-empty ones) and joining with `", "`. -/
def collectHeaders (reg : FmtReg) (els : List RH) : List (String × String) :=
  (collectHeadersAux reg [] els).map
    (fun p => (p.1, joinComma (p.2.filter (fun x => x ≠ ""))))

/-- A form-data value: text, or a file-like blob identified by its
filename (its payload is irrelevant to every claim). -/
inductive FieldValue where
  | text (s : String)
  | file (filename : String)
deriving DecidableEq, Repr

/-- JavaScript stringification of a form-data value (template literals,
`String(value)`): a `File` stringifies to its object tag. -/
def fieldToString : FieldValue → String
  | FieldValue.text s => s
  | FieldValue.file _ => "[object File]"

/-- Query representation of a value (`buildRequest` line 102):
`v instanceof File ? v.name : v`. -/
def fieldQueryRepr : FieldValue → String
  | FieldValue.text s => s
  | FieldValue.file n => n

/-- A form control as the routing code sees it: its `name`, its submitted
value, its `for` attribute (`none` when absent), and the index of the
`request-header` fieldset containing it, if any.  `RequestHeader.inputs`
(lines 18-22) selects the controls with `getAttribute('for') === this.id`
or contained in the element. -/
structure Input where
  name : String
  value : FieldValue
  forAttr : Option String := none
  container : Option Nat := none
deriving DecidableEq, Repr

/-- The form as the pipeline sees it: its `request-header` fieldsets in
document order, its controls in `form.elements` order, and the reflected
`method` attribute, `enctype` property and `noValidate` property.  The
`FormData` snapshot of the host is modelled by the controls' name/value
pairs. -/
structure Form where
  rhs : List RH
  inputs : List Input
  methodAttr : String := ""
  enctype : String := ""
  noValidate : Bool := false

/-- The submission form-data snapshot `new FormData(this, this._submitter)`
(line 83): the named controls' entries in order. -/
def formDataOf (f : Form) : List (String × FieldValue) :=
  f.inputs.filterMap (fun i => if i.name = "" then none else some (i.name, i.value))

/-- The controls selected by `RequestHeader.inputs` for the `i`-th
declaration: linked by `for=` to its id, or contained in it. -/
def rhInputs (f : Form) (i : Nat) (rh : RH) : List Input :=
  f.inputs.filter (fun inp => inp.forAttr = some rh.id ∨ inp.container = some i)

/-- `HTTPAwareForm.getHeaderBoundFields` (lines 65-67): the non-empty
names of every control bound to at least one `request-header` declaration
(the JavaScript `Set` only deduplicates; deletion below is idempotent, so
the duplication is immaterial). -/
def getHeaderBoundFields (f : Form) : List String :=
  (f.rhs.enum.flatMap (fun p => rhInputs f p.1 p.2)).filterMap
    (fun inp => if inp.name = "" then none else some inp.name)

/-- `FormData.delete(name)`: remove every entry with that name. -/
def fdDelete (fd : List (String × FieldValue)) (n : String) : List (String × FieldValue) :=
  fd.filter (fun p => p.1 ≠ n)

/-- `HTTPAwareForm.collectFormData` (lines 82-86): the snapshot with every
header-bound field name deleted. -/
def collectFormData (f : Form) : List (String × FieldValue) :=
  (getHeaderBoundFields f).foldl fdDelete (formDataOf f)

/-- A request body as `encodeBody` can produce it: a `text/plain`
rendering, a `URLSearchParams` pair list, or the raw `FormData` passed
through for multipart (and any other enctype). -/
inductive Body where
  | textPlain (s : String)
  | urlencoded (pairs : List (String × String))
  | multipart (data : List (String × FieldValue))
deriving DecidableEq, Repr

/-- JavaScript `Array.prototype.join('\r\n')`. -/
def joinCRLF : List String → String
  | [] => ""
  | [x] => x
  | x :: rest => x ++ "\r\n" ++ joinCRLF rest

/-- `HTTPAwareForm.encodeBody` (lines 88-92): `text/plain` renders
`name=value` lines joined by CRLF; urlencoded keeps only non-`File`
pairs; anything else passes the raw field set through. -/
def encodeBody (formData : List (String × FieldValue)) (enctype : String) : Body :=
  if enctype = "text/plain" then
    Body.textPlain (joinCRLF (formData.map (fun p => p.1 ++ "=" ++ fieldToString p.2)))
  else if enctype = "application/x-www-form-urlencoded" then
    Body.urlencoded (formData.filterMap
      (fun p => match p.2 with | FieldValue.text s => some (p.1, s) | FieldValue.file _ => none))
  else Body.multipart formData

/-- A submit control's override attributes (`formMethod` and
`formEnctype` reflect to the empty string when unset, which is falsy,
exactly like an absent attribute under `||`). -/
structure Submitter where
  formMethod : String := ""
  formEnctype : String := ""
  formNoValidate : Bool := false
deriving DecidableEq, Repr

/-- JavaScript `a || b` on strings: the empty string is falsy. -/
def jsOr (a b : String) : String := if a = "" then b else a

/-- The effective action URL after the host parsed
`(submitter formaction || form action || location.href)` against the
document origin: its pre-existing query decoded to pairs and everything
else opaque in `base`.  URL string parsing and `URLSearchParams`
serialization are host machinery. -/
structure URLM where
  base : String
  search : List (String × String)
deriving DecidableEq, Repr

/-- The request descriptor (`new Request(...)`, line 107): method, the
URL split into its base and its search pairs, the ordered header list,
and the optional body. -/
structure RequestM where
  method : String
  urlBase : String
  urlSearch : List (String × String)
  headers : List (String × String)
  body : Option Body
deriving DecidableEq, Repr

/-- The effective method (line 95):
`(submitter?.formMethod || method attribute || 'GET').toUpperCase()`. -/
def effMethod (f : Form) (sub : Option Submitter) : String :=
  jsToUpper (jsOr (jsOr (match sub with | some s => s.formMethod | none => "") f.methodAttr) "GET")

/-- The effective enctype (line 104):
`submitter?.formEnctype || form.enctype || 'application/x-www-form-urlencoded'`. -/
def effEnctype (f : Form) (sub : Option Submitter) : String :=
  jsOr (jsOr (match sub with | some s => s.formEnctype | none => "") f.enctype)
    "application/x-www-form-urlencoded"

/-- The methods routed to the query string (line 101). -/
def queryMethods : List String := ["GET", "HEAD", "DELETE"]

/-- `HTTPAwareForm.buildRequest` (lines 94-108): resolve the effective
method, collect headers and free fields; for `GET`/`HEAD`/`DELETE`
replace the URL's search component with the free fields (files by their
filename) and leave the body `null`; for every other method leave the
search component untouched and encode the free fields into the body per
the effective enctype. -/
def buildRequest (reg : FmtReg) (f : Form) (sub : Option Submitter) (action : URLM) : RequestM :=
  let method := effMethod f sub
  let headers := collectHeaders reg f.rhs
  let formData := collectFormData f
  if method ∈ queryMethods then
    { method := method, urlBase := action.base,
      urlSearch := formData.map (fun p => (p.1, fieldQueryRepr p.2)),
      headers := headers, body := none }
  else
    { method := method, urlBase := action.base, urlSearch := action.search,
      headers := headers, body := some (encodeBody formData (effEnctype f sub)) }

/-- The effective novalidate switch (line 136):
`this.noValidate || submitter?.formNoValidate`. -/
def noValidateEff (f : Form) (sub : Option Submitter) : Bool :=
  f.noValidate || (match sub with | some s => s.formNoValidate | none => false)

/-- Observable outcome of one submission attempt: whether the invalid
state was reported, the descriptor built (if any), the descriptor carried
by the dispatched `submit` event (if any), the descriptor handed to
`fetch` (if any), and the form's `preparedRequest` property during the
synchronous dispatch and after the call returns. -/
structure SubmitResult where
  reportedValidity : Bool
  builtRequest : Option RequestM
  firedEvent : Option RequestM
  fetchStarted : Option RequestM
  preparedDuringDispatch : Option RequestM
  preparedAfter : Option RequestM
deriving DecidableEq, Repr

/-- `HTTPAwareForm.requestSubmit` (lines 134-151).  `validityOK` is the
host's `checkValidity()` answer; `listenerCancels` is true when a
listener calls `preventDefault` on the dispatched cancelable event, in
which case `dispatchEvent` returns false; `prevPrepared` is the value of
`preparedRequest` on entry.  On a validation failure the method reports
and returns before building anything; otherwise it builds the
descriptor, stores it in `preparedRequest`, dispatches the `submit`
event, starts `fetch` exactly when no listener cancelled, and finally
resets `preparedRequest` to `null` on every path past validation. -/
def requestSubmit (reg : FmtReg) (f : Form) (sub : Option Submitter) (action : URLM)
    (validityOK : Bool) (listenerCancels : Bool) (prevPrepared : Option RequestM) : SubmitResult :=
  if !(noValidateEff f sub) ∧ validityOK = false then
    { reportedValidity := true, builtRequest := none, firedEvent := none,
      fetchStarted := none, preparedDuringDispatch := prevPrepared,
      preparedAfter := prevPrepared }
  else
    let req := buildRequest reg f sub action
    { reportedValidity := false, builtRequest := some req, firedEvent := some req,
      fetchStarted := if listenerCancels then none else some req,
      preparedDuringDispatch := some req, preparedAfter := none }

/-- `HTTPAwareForm.submit` (lines 126-132): build and fetch directly, with
no validation, no event and no touch of `preparedRequest` (the stored
`_submitter` from a previous `requestSubmit` is whatever `sub` holds). -/
def submitPlain (reg : FmtReg) (f : Form) (sub : Option Submitter) (action : URLM)
    (prevPrepared : Option RequestM) : SubmitResult :=
  let req := buildRequest reg f sub action
  { reportedValidity := false, builtRequest := some req, firedEvent := none,
    fetchStarted := some req, preparedDuringDispatch := prevPrepared,
    preparedAfter := prevPrepared }

/-- Specification-side observer: the accumulated segment list for header
name `k` after folding a run of declarations whose lowercased name is
`k`, starting from the map's previous entry (`none` when the header has
not been declared yet).  Combinable names extend the previous segments;
other names restart from a single segment. -/
def segsFold (reg : FmtReg) (k : String) (acc : Option (List String)) (ds : List RH) : Option (List String) :=
  ds.foldl
    (fun a el =>
      some ((if k ∈ COMBINABLE_HEADERS then a.getD [] else []) ++ [computeValue reg el]))
    acc

/-- Specification-side observer: the elements of `l` not in `seen`, kept
in the order of their first occurrence. -/
def firstOccAux (seen : List String) : List String → List String
  | [] => []
  | x :: rest => if x ∈ seen then firstOccAux seen rest else x :: firstOccAux (x :: seen) rest

/-- Specification-side observer: the distinct elements of `l` in order of
first occurrence. -/
def firstOccurrences (l : List String) : List String := firstOccAux [] l

/-- Specification-side observer: the lowercased header names newly added
to an aggregation map whose key list is `seen`, in order of first
declaration. -/
def newNames (seen : List String) : List RH → List String
  | [] => []
  | el :: rest =>
    if (jsToLower el.header) = "" then newNames seen rest
    else if (jsToLower el.header) ∈ seen then newNames seen rest
    else (jsToLower el.header) :: newNames ((jsToLower el.header) :: seen) rest

/-- Specification-side observer: the field names a body carries as
distinct entries (`text/plain` is an opaque rendered string). -/
def bodyFieldNames : Body → List String
  | Body.textPlain _ => []
  | Body.urlencoded pairs => pairs.map Prod.fst
  | Body.multipart data => data.map Prod.fst

theorem dropWhileLen {α : Type} (p : α → Bool) (l : List α) :
    (l.dropWhile p).length ≤ l.length := by
  induction l with
  | nil => simp
  | cons x rest ih =>
    by_cases hp : p x = true
    · simp only [List.dropWhile_cons, hp, if_true, List.length_cons]
      omega
    · simp [List.dropWhile_cons, hp]

theorem matchPlaceholder_length : ∀ {l n fo r},
    matchPlaceholder l = some (n, fo, r) → r.length < l.length := by
  intro l n fo r h
  cases l with
  | nil => simp [matchPlaceholder] at h
  | cons c rest =>
    have hdw : (rest.dropWhile isIdChar).length ≤ rest.length := dropWhileLen _ _
    simp only [matchPlaceholder] at h
    split at h
    · split at h
      · rename_i r1 heq
        obtain ⟨-, -, rfl⟩ := Prod.mk.injEq .. ▸ Option.some.injEq _ _ ▸ h
        have : r.length + 1 ≤ rest.length := by
          rw [heq] at hdw
          simpa using hdw
        simp only [List.length_cons]
        omega
      · rename_i r2 heq
        have hdw2 : (r2.dropWhile (fun ch => ch ≠ '\x7d')).length ≤ r2.length :=
          dropWhileLen _ _
        split at h
        · rename_i r3 heq2
          split at h
          · exact absurd h (by simp)
          · obtain ⟨-, -, rfl⟩ := Prod.mk.injEq .. ▸ Option.some.injEq _ _ ▸ h
            have h2 : r2.length + 1 ≤ rest.length := by
              rw [heq] at hdw
              simpa using hdw
            have h3 : r.length + 1 ≤ r2.length := by
              rw [heq2] at hdw2
              simpa using hdw2
            simp only [List.length_cons]
            omega
        · exact absurd h (by simp)
      · exact absurd h (by simp)
    · exact absurd h (by simp)

theorem substPassF_irrel (reg : FmtReg) (values : List (String × String)) :
    ∀ (f1 f2 : Nat) (l : List Char), l.length ≤ f1 → l.length ≤ f2 →
    substPassF reg values f1 l = substPassF reg values f2 l := by
  intro f1
  induction f1 with
  | zero =>
    intro f2 l h1 _
    have hl : l = [] := List.length_eq_zero.mp (Nat.le_zero.mp h1)
    subst hl
    cases f2 <;> rfl
  | succ f ih =>
    intro f2 l h1 h2
    cases l with
    | nil => cases f2 <;> rfl
    | cons c rest =>
      cases f2 with
      | zero => simp at h2
      | succ g =>
        simp only [List.length_cons, Nat.succ_le_succ_iff] at h1 h2
        by_cases hc : c = '\x7b'
        · subst hc
          cases hm : matchPlaceholder rest with
          | none =>
            simp only [substPassF, hm, if_pos]
            rw [ih g rest h1 h2]
          | some t =>
            obtain ⟨n, fo, r⟩ := t
            have hr : r.length < rest.length := matchPlaceholder_length hm
            simp only [substPassF, hm, if_pos]
            rw [ih g r (by omega) (by omega)]
        · simp only [substPassF, if_neg hc]
          rw [ih g rest h1 h2]

theorem substPass_nil (reg : FmtReg) (values : List (String × String)) :
    substPass reg values [] = [] := rfl

theorem substPass_cons_ne (reg : FmtReg) (values : List (String × String))
    {c : Char} (hc : c ≠ '\x7b') (l : List Char) :
    substPass reg values (c :: l) = c :: substPass reg values l := by
  show substPassF reg values (l.length + 1) (c :: l) = _
  simp only [substPassF, if_neg hc]
  rfl

theorem substPass_no_brace (reg : FmtReg) (values : List (String × String)) :
    ∀ {l : List Char}, (∀ c ∈ l, c ≠ '\x7b') → substPass reg values l = l := by
  intro l
  induction l with
  | nil => intro _; rfl
  | cons c rest ih =>
    intro h
    rw [substPass_cons_ne reg values (h c (List.mem_cons_self c rest)) rest,
      ih (fun x hx => h x (List.mem_cons_of_mem c hx))]

theorem substPass_matchStep (reg : FmtReg) (values : List (String × String))
    {rest n : List Char} {fo : Option (List Char)} {r : List Char}
    (hm : matchPlaceholder rest = some (n, fo, r)) :
    substPass reg values ('\x7b' :: rest) =
      (match objGet values (String.mk n) with
       | some v => (formatValue reg v (fo.map String.mk)).data
       | none => placeholderText n fo) ++ substPass reg values r := by
  have hr := matchPlaceholder_length hm
  show substPassF reg values (rest.length + 1) ('\x7b' :: rest) = _
  simp only [substPassF, hm, if_pos]
  rw [substPassF_irrel reg values rest.length r.length r (by omega) (Nat.le_refl _)]
  rfl

theorem replacePair2_match (a b : Char) (repl rest : List Char) :
    replacePair2 a b repl (a :: b :: rest) = repl ++ replacePair2 a b repl rest := by
  simp [replacePair2]

theorem replacePair2_cons_ne (a b : Char) (repl : List Char) {x : Char} (hx : x ≠ a) :
    ∀ l, replacePair2 a b repl (x :: l) = x :: replacePair2 a b repl l := by
  intro l
  cases l with
  | nil => rfl
  | cons y rest => simp [replacePair2, hx]

theorem replacePair2_append_ne (a b : Char) (repl : List Char) {pre : List Char}
    (h : ∀ c ∈ pre, c ≠ a) (post : List Char) :
    replacePair2 a b repl (pre ++ post) = pre ++ replacePair2 a b repl post := by
  induction pre with
  | nil => simp
  | cons x rest ih =>
    simp only [List.cons_append]
    rw [replacePair2_cons_ne a b repl (h x (List.mem_cons_self x rest)),
      ih (fun c hc => h c (List.mem_cons_of_mem x hc))]

theorem replacePair2_id (a b : Char) (repl : List Char) {l : List Char}
    (h : ∀ c ∈ l, c ≠ a) : replacePair2 a b repl l = l := by
  have h0 : replacePair2 a b repl ([] : List Char) = [] := rfl
  have := replacePair2_append_ne a b repl h []
  simpa [h0] using this

theorem replaceTriple_match (a b c : Char) (repl rest : List Char) :
    replaceTriple a b c repl (a :: b :: c :: rest) = repl ++ replaceTriple a b c repl rest := by
  simp [replaceTriple]

theorem replaceTriple_cons_ne (a b c : Char) (repl : List Char) {x : Char} (hx : x ≠ a) :
    ∀ l, replaceTriple a b c repl (x :: l) = x :: replaceTriple a b c repl l := by
  intro l
  match l with
  | [] => rfl
  | [y] => rfl
  | y :: z :: rest => simp [replaceTriple, hx]

theorem replaceTriple_append_ne (a b c : Char) (repl : List Char) {pre : List Char}
    (h : ∀ ch ∈ pre, ch ≠ a) (post : List Char) :
    replaceTriple a b c repl (pre ++ post) = pre ++ replaceTriple a b c repl post := by
  induction pre with
  | nil => simp
  | cons x rest ih =>
    simp only [List.cons_append]
    rw [replaceTriple_cons_ne a b c repl (h x (List.mem_cons_self x rest)),
      ih (fun ch hc => h ch (List.mem_cons_of_mem x hc))]

theorem isIdChar_ne {c : Char} (h : isIdChar c = true) :
    c ≠ '\x7b' ∧ c ≠ '\x7d' ∧ c ≠ '\x00' := by
  refine ⟨?_, ?_, ?_⟩ <;> rintro rfl <;> exact absurd h (by decide)

theorem interpolate_missing (reg : FmtReg) (values : List (String × String))
    (hmiss : objGet values "missing" = none) :
    interpolate reg "pages=\x7bmissing\x7d" values = "pages=\x7bmissing\x7d" := by
  have h1 : replacePair2 '\x7b' '\x7b' sentO ("pages=\x7bmissing\x7d".data)
      = "pages=\x7bmissing\x7d".data := by decide
  have h2 : replacePair2 '\x7d' '\x7d' sentC ("pages=\x7bmissing\x7d".data)
      = "pages=\x7bmissing\x7d".data := by decide
  have e : "pages=\x7bmissing\x7d".data
      = 'p' :: 'a' :: 'g' :: 'e' :: 's' :: '=' :: '\x7b' :: ("missing\x7d".data) := by
    decide
  have hm : matchPlaceholder ("missing\x7d".data) = some ("missing".data, none, []) := by
    decide
  unfold interpolate
  rw [h1, h2, e]
  rw [substPass_cons_ne reg values (by decide), substPass_cons_ne reg values (by decide),
    substPass_cons_ne reg values (by decide), substPass_cons_ne reg values (by decide),
    substPass_cons_ne reg values (by decide), substPass_cons_ne reg values (by decide),
    substPass_matchStep reg values hm]
  simp only [show String.mk ("missing".data) = "missing" from rfl, hmiss]
  rw [substPass_nil]
  decide

theorem interpolate_escaped_x (reg : FmtReg) (values : List (String × String)) :
    interpolate reg "\x7b\x7bx\x7d\x7d" values = "\x7bx\x7d" := by
  have h1 : replacePair2 '\x7b' '\x7b' sentO ("\x7b\x7bx\x7d\x7d".data)
      = ['\x00', 'O', '\x00', 'x', '\x7d', '\x7d'] := by decide
  have h2 : replacePair2 '\x7d' '\x7d' sentC ['\x00', 'O', '\x00', 'x', '\x7d', '\x7d']
      = ['\x00', 'O', '\x00', 'x', '\x00', 'C', '\x00'] := by decide
  unfold interpolate
  rw [h1, h2, substPass_no_brace reg values (by decide)]
  decide

theorem interpolate_escaped_general (reg : FmtReg) (values : List (String × String))
    {s : String} (hid : ∀ c ∈ s.data, isIdChar c = true) :
    interpolate reg ("\x7b\x7b" ++ s ++ "\x7d\x7d") values = "\x7b" ++ s ++ "\x7d" := by
  have hnb : ∀ c ∈ s.data, c ≠ '\x7b' := fun c hc => (isIdChar_ne (hid c hc)).1
  have hnc : ∀ c ∈ s.data, c ≠ '\x7d' := fun c hc => (isIdChar_ne (hid c hc)).2.1
  have hnz : ∀ c ∈ s.data, c ≠ '\x00' := fun c hc => (isIdChar_ne (hid c hc)).2.2
  have hdata : ("\x7b\x7b" ++ s ++ "\x7d\x7d").data
      = '\x7b' :: '\x7b' :: (s.data ++ ['\x7d', '\x7d']) := by
    simp [String.data_append]
  have h1 : replacePair2 '\x7b' '\x7b' sentO ('\x7b' :: '\x7b' :: (s.data ++ ['\x7d', '\x7d']))
      = sentO ++ (s.data ++ ['\x7d', '\x7d']) := by
    rw [replacePair2_match]
    rw [replacePair2_append_ne _ _ _ hnb]
    rw [show replacePair2 '\x7b' '\x7b' sentO ['\x7d', '\x7d'] = ['\x7d', '\x7d'] from by decide]
  have h2 : replacePair2 '\x7d' '\x7d' sentC (sentO ++ (s.data ++ ['\x7d', '\x7d']))
      = sentO ++ s.data ++ sentC := by
    have hpre : ∀ c ∈ sentO ++ s.data, c ≠ '\x7d' := by
      intro c hc
      rcases List.mem_append.mp hc with h | h
      · fin_cases h <;> decide
      · exact hnc c h
    rw [show sentO ++ (s.data ++ ['\x7d', '\x7d']) = (sentO ++ s.data) ++ ['\x7d', '\x7d'] from by
      simp]
    rw [replacePair2_append_ne _ _ _ hpre]
    rw [show replacePair2 '\x7d' '\x7d' sentC ['\x7d', '\x7d'] = sentC from by decide]
  have h3 : substPass reg values (sentO ++ s.data ++ sentC) = sentO ++ s.data ++ sentC := by
    apply substPass_no_brace
    intro c hc
    rcases List.mem_append.mp hc with h | h
    · rcases List.mem_append.mp h with h | h
      · fin_cases h <;> decide
      · exact (isIdChar_ne (hid c h)).1
    · fin_cases h <;> decide
  have h4 : replaceTriple '\x00' 'O' '\x00' ['\x7b'] (sentO ++ s.data ++ sentC)
      = '\x7b' :: (s.data ++ sentC) := by
    rw [show sentO ++ s.data ++ sentC = '\x00' :: 'O' :: '\x00' :: (s.data ++ sentC) from by
      simp [sentO]]
    rw [replaceTriple_match]
    rw [replaceTriple_append_ne _ _ _ _ hnz]
    rw [show replaceTriple '\x00' 'O' '\x00' ['\x7b'] sentC = sentC from by decide]
    simp
  have h5 : replaceTriple '\x00' 'C' '\x00' ['\x7d'] ('\x7b' :: (s.data ++ sentC))
      = '\x7b' :: (s.data ++ ['\x7d']) := by
    rw [replaceTriple_cons_ne _ _ _ _ (by decide)]
    rw [replaceTriple_append_ne _ _ _ _ hnz]
    rw [show replaceTriple '\x00' 'C' '\x00' ['\x7d'] sentC = ['\x7d'] from by decide]
  unfold interpolate
  rw [hdata, h1, h2, h3, h4, h5]
  have : ('\x7b' :: (s.data ++ ['\x7d'])) = ("\x7b" ++ s ++ "\x7d").data := by
    simp [String.data_append]
  rw [this]

theorem find?_map_keyed {α β : Type} (g : α → β) (k : String) (m : List (String × α)) :
    (m.map (fun p => (p.1, g p.2))).find? (fun p => p.1 == k)
      = (m.find? (fun p => p.1 == k)).map (fun p => (p.1, g p.2)) := by
  induction m with
  | nil => rfl
  | cons p rest ih =>
    by_cases hp : (p.1 == k) = true
    · simp [List.find?_cons_of_pos, hp]
    · simp only [List.map_cons]
      rw [List.find?_cons_of_neg _ (by simpa using hp),
        List.find?_cons_of_neg _ (by simpa using hp), ih]

theorem assocGet_map_val {α β : Type} (g : α → β) (m : List (String × α)) (k : String) :
    assocGet (m.map (fun p => (p.1, g p.2))) k = (assocGet m k).map g := by
  unfold assocGet
  rw [find?_map_keyed]
  cases m.find? (fun p => p.1 == k) <;> rfl

theorem find?_update_self {α : Type} (m : List (String × α)) (k : String) (v : α) :
    (m.map (fun p => if p.1 == k then (k, v) else p)).find? (fun p => p.1 == k)
      = if m.any (fun p => p.1 == k) then some (k, v) else none := by
  induction m with
  | nil => rfl
  | cons p rest ih =>
    by_cases hp : (p.1 == k) = true
    · simp only [List.map_cons, if_pos hp, List.any_cons, hp, Bool.true_or, if_true]
      exact List.find?_cons_of_pos _ (by simp)
    · simp only [List.map_cons, if_neg hp, List.any_cons, hp, Bool.false_or]
      rw [List.find?_cons_of_neg _ (by simpa using hp), ih]

theorem find?_key_cons {α : Type} (q : String × α) (rest : List (String × α)) (k : String) :
    (q :: rest).find? (fun p => p.1 == k)
      = if (q.1 == k) = true then some q else rest.find? (fun p => p.1 == k) := by
  by_cases hq : (q.1 == k) = true
  · rw [if_pos hq]
    exact List.find?_cons_of_pos _ hq
  · rw [if_neg hq]
    exact List.find?_cons_of_neg _ hq

theorem find?_update_other {α : Type} {k k2 : String} (h : k2 ≠ k) (v : α)
    (m : List (String × α)) :
    (m.map (fun p => if p.1 == k then (k, v) else p)).find? (fun p => p.1 == k2)
      = m.find? (fun p => p.1 == k2) := by
  induction m with
  | nil => rfl
  | cons p rest ih =>
    simp only [List.map_cons]
    rw [find?_key_cons, find?_key_cons p rest k2, ih]
    by_cases hp : (p.1 == k) = true
    · have hpk : p.1 = k := by simpa using hp
      rw [if_pos hp]
      have h1 : ¬ ((((k, v) : String × α).1 == k2) = true) := by
        simp only [beq_iff_eq]
        exact fun hh => h hh.symm
      have h2 : ¬ ((p.1 == k2) = true) := by
        simp only [beq_iff_eq, hpk]
        exact fun hh => h hh.symm
      rw [if_neg h1, if_neg h2]
    · rw [if_neg hp]

theorem assocGet_mapSet_self {α : Type} (m : List (String × α)) (k : String) (v : α) :
    assocGet (mapSet m k v) k = some v := by
  unfold mapSet assocGet
  by_cases hany : m.any (fun p => p.1 == k) = true
  · rw [if_pos hany, find?_update_self, if_pos hany]
    rfl
  · rw [if_neg hany, List.find?_append]
    have hnone : m.find? (fun p => p.1 == k) = none := by
      rw [List.find?_eq_none]
      intro x hx hpx
      exact hany (List.any_eq_true.mpr ⟨x, hx, hpx⟩)
    rw [hnone]
    simp [List.find?_cons_of_pos]

theorem assocGet_mapSet_ne {α : Type} (m : List (String × α)) {k k2 : String} (v : α)
    (h : k2 ≠ k) : assocGet (mapSet m k v) k2 = assocGet m k2 := by
  unfold mapSet assocGet
  by_cases hany : m.any (fun p => p.1 == k) = true
  · rw [if_pos hany, find?_update_other h]
  · rw [if_neg hany, List.find?_append]
    have hlast : ([(k, v)].find? (fun p => p.1 == k2)) = none := by
      rw [List.find?_eq_none]
      intro x hx hpx
      simp at hx
      subst hx
      simp at hpx
      exact h hpx.symm
    rw [hlast]
    cases m.find? (fun p => p.1 == k2) <;> rfl

theorem keys_update {α : Type} (m : List (String × α)) (k : String) (v : α) :
    (m.map (fun p => if p.1 == k then (k, v) else p)).map Prod.fst = m.map Prod.fst := by
  induction m with
  | nil => rfl
  | cons p rest ih =>
    by_cases hp : (p.1 == k) = true
    · have hpk : p.1 = k := by simpa using hp
      simp only [List.map_cons, if_pos hp, ih]
      rw [hpk]
    · simp only [List.map_cons, if_neg hp, ih]

theorem mapSet_keys {α : Type} (m : List (String × α)) (k : String) (v : α) :
    (mapSet m k v).map Prod.fst =
      if m.any (fun p => p.1 == k) = true then m.map Prod.fst else m.map Prod.fst ++ [k] := by
  unfold mapSet
  by_cases hany : m.any (fun p => p.1 == k) = true
  · rw [if_pos hany, if_pos hany, keys_update]
  · rw [if_neg hany, if_neg hany]
    simp

theorem any_key_iff {α : Type} (m : List (String × α)) (k : String) :
    m.any (fun p => p.1 == k) = true ↔ k ∈ m.map Prod.fst := by
  simp only [List.any_eq_true, List.mem_map, beq_iff_eq]

theorem collectHeadersAux_get (reg : FmtReg) {k : String} (hk : k ≠ "") :
    ∀ (els : List RH) (m : List (String × List String)),
    assocGet (collectHeadersAux reg m els) k
      = segsFold reg k (assocGet m k) (els.filter (fun el => (jsToLower el.header) == k)) := by
  intro els
  induction els with
  | nil => intro m; rfl
  | cons el rest ih =>
    intro m
    by_cases hemp : (jsToLower el.header) = ""
    · have hne : ((jsToLower el.header) == k) = false := by
        simp only [beq_eq_false_iff_ne, hemp]
        exact fun hh => hk hh.symm
      rw [show collectHeadersAux reg m (el :: rest) = collectHeadersAux reg m rest from by
        simp only [collectHeadersAux, if_pos hemp]]
      rw [List.filter_cons_of_neg (by simp [hne])]
      exact ih m
    · rw [show collectHeadersAux reg m (el :: rest)
          = collectHeadersAux reg
              (mapSet m (jsToLower el.header)
                ((if (jsToLower el.header) ∈ COMBINABLE_HEADERS
                  then (assocGet m (jsToLower el.header)).getD [] else [])
                 ++ [computeValue reg el])) rest from by
        simp only [collectHeadersAux, if_neg hemp]]
      by_cases heq : (jsToLower el.header) = k
      · rw [heq]
        rw [ih]
        rw [assocGet_mapSet_self]
        rw [List.filter_cons_of_pos (by simp [heq])]
        simp only [segsFold, List.foldl_cons]
      · rw [ih]
        rw [assocGet_mapSet_ne _ _ (fun hh => heq hh.symm)]
        rw [List.filter_cons_of_neg (by simp [heq])]

theorem collectHeaders_get (reg : FmtReg) (els : List RH) (k : String) :
    assocGet (collectHeaders reg els) k
      = (assocGet (collectHeadersAux reg [] els) k).map
          (fun segs => joinComma (segs.filter (fun x => x ≠ ""))) := by
  unfold collectHeaders
  exact assocGet_map_val (fun segs => joinComma (segs.filter (fun x => x ≠ "")))
    (collectHeadersAux reg [] els) k

theorem newNames_congr : ∀ (els : List RH) {s1 s2 : List String},
    (∀ x, x ∈ s1 ↔ x ∈ s2) → newNames s1 els = newNames s2 els := by
  intro els
  induction els with
  | nil => intro s1 s2 _; rfl
  | cons el rest ih =>
    intro s1 s2 h
    simp only [newNames]
    by_cases hemp : (jsToLower el.header) = ""
    · rw [if_pos hemp, if_pos hemp]
      exact ih h
    · rw [if_neg hemp, if_neg hemp]
      by_cases hm : (jsToLower el.header) ∈ s1
      · rw [if_pos hm, if_pos ((h _).mp hm)]
        exact ih h
      · rw [if_neg hm, if_neg (fun hh => hm ((h _).mpr hh))]
        congr 1
        refine ih (fun x => ?_)
        simp only [List.mem_cons]
        rw [h x]

theorem collectHeadersAux_keys (reg : FmtReg) :
    ∀ (els : List RH) (m : List (String × List String)),
    (collectHeadersAux reg m els).map Prod.fst
      = m.map Prod.fst ++ newNames (m.map Prod.fst) els := by
  intro els
  induction els with
  | nil => intro m; simp [collectHeadersAux, newNames]
  | cons el rest ih =>
    intro m
    by_cases hemp : (jsToLower el.header) = ""
    · rw [show collectHeadersAux reg m (el :: rest) = collectHeadersAux reg m rest from by
        simp only [collectHeadersAux, if_pos hemp]]
      rw [show newNames (m.map Prod.fst) (el :: rest) = newNames (m.map Prod.fst) rest from by
        simp only [newNames, if_pos hemp]]
      exact ih m
    · rw [show collectHeadersAux reg m (el :: rest)
          = collectHeadersAux reg
              (mapSet m (jsToLower el.header)
                ((if (jsToLower el.header) ∈ COMBINABLE_HEADERS
                  then (assocGet m (jsToLower el.header)).getD [] else [])
                 ++ [computeValue reg el])) rest from by
        simp only [collectHeadersAux, if_neg hemp]]
      rw [show newNames (m.map Prod.fst) (el :: rest)
          = (if (jsToLower el.header) ∈ m.map Prod.fst
             then newNames (m.map Prod.fst) rest
             else (jsToLower el.header) :: newNames ((jsToLower el.header) :: m.map Prod.fst) rest)
          from by
        simp only [newNames, if_neg hemp]]
      by_cases hmem : (jsToLower el.header) ∈ m.map Prod.fst
      · have hany : m.any (fun p => p.1 == (jsToLower el.header)) = true :=
          (any_key_iff m _).mpr hmem
        rw [ih, mapSet_keys, if_pos hany, if_pos hmem]
      · have hany : ¬ (m.any (fun p => p.1 == (jsToLower el.header)) = true) :=
          fun hh => hmem ((any_key_iff m _).mp hh)
        rw [ih, mapSet_keys, if_neg hany, if_neg hmem]
        rw [newNames_congr rest
          (show ∀ x, x ∈ m.map Prod.fst ++ [(jsToLower el.header)]
              ↔ x ∈ (jsToLower el.header) :: m.map Prod.fst from by
            intro x
            simp [List.mem_append, List.mem_cons, or_comm])]
        simp

theorem newNames_eq_firstOccAux : ∀ (els : List RH) (seen : List String),
    newNames seen els
      = firstOccAux seen ((els.map (fun el => (jsToLower el.header))).filter
          (fun h => h ≠ "")) := by
  intro els
  induction els with
  | nil => intro seen; rfl
  | cons el rest ih =>
    intro seen
    by_cases hemp : (jsToLower el.header) = ""
    · rw [show newNames seen (el :: rest) = newNames seen rest from by
        simp only [newNames, if_pos hemp]]
      rw [List.map_cons, List.filter_cons_of_neg (by simp [hemp])]
      exact ih seen
    · rw [List.map_cons, List.filter_cons_of_pos (by simp [hemp])]
      simp only [newNames, if_neg hemp, firstOccAux]
      by_cases hm : (jsToLower el.header) ∈ seen
      · rw [if_pos hm, if_pos hm]
        exact ih seen
      · rw [if_neg hm, if_neg hm, ih]

theorem mem_firstOccAux : ∀ (l seen : List String) (x : String),
    x ∈ firstOccAux seen l ↔ x ∈ l ∧ x ∉ seen := by
  intro l
  induction l with
  | nil => intro seen x; simp [firstOccAux]
  | cons y rest ih =>
    intro seen x
    simp only [firstOccAux]
    by_cases hy : y ∈ seen
    · rw [if_pos hy, ih]
      simp only [List.mem_cons]
      constructor
      · rintro ⟨h1, h2⟩
        exact ⟨Or.inr h1, h2⟩
      · rintro ⟨h1 | h1, h2⟩
        · subst h1
          exact absurd hy h2
        · exact ⟨h1, h2⟩
    · rw [if_neg hy]
      simp only [List.mem_cons, ih]
      constructor
      · rintro (rfl | ⟨h1, h2⟩)
        · exact ⟨Or.inl rfl, hy⟩
        · exact ⟨Or.inr h1, fun hh => h2 (Or.inr hh)⟩
      · rintro ⟨rfl | h1, h2⟩
        · exact Or.inl rfl
        · by_cases hxy : x = y
          · exact Or.inl hxy
          · exact Or.inr ⟨h1, fun hh => hh.elim hxy h2⟩

theorem firstOccAux_nodup : ∀ (l seen : List String), (firstOccAux seen l).Nodup := by
  intro l
  induction l with
  | nil => intro seen; exact List.nodup_nil
  | cons y rest ih =>
    intro seen
    simp only [firstOccAux]
    by_cases hy : y ∈ seen
    · rw [if_pos hy]
      exact ih seen
    · rw [if_neg hy]
      refine List.nodup_cons.mpr ⟨fun hmem => ?_, ih (y :: seen)⟩
      exact ((mem_firstOccAux rest (y :: seen) y).mp hmem).2 (List.mem_cons_self y seen)

theorem collectHeaders_keys (reg : FmtReg) (els : List RH) :
    (collectHeaders reg els).map Prod.fst
      = firstOccurrences ((els.map (fun el => (jsToLower el.header))).filter
          (fun h => h ≠ "")) := by
  unfold collectHeaders firstOccurrences
  rw [List.map_map]
  have : ((Prod.fst ∘ fun p : String × List String =>
      (p.1, joinComma (p.2.filter (fun x => x ≠ "")))) = Prod.fst) := rfl
  rw [this, collectHeadersAux_keys reg els []]
  simp [newNames_eq_firstOccAux]

theorem assocGet_eq_none_iff {α : Type} (m : List (String × α)) (k : String) :
    assocGet m k = none ↔ k ∉ m.map Prod.fst := by
  unfold assocGet
  rw [Option.map_eq_none', List.find?_eq_none]
  simp only [beq_iff_eq, List.mem_map]
  constructor
  · rintro h ⟨p, hp, he⟩
    exact h p hp he
  · intro h p hp he
    exact h ⟨p, hp, he⟩

theorem segsFold_mem : ∀ (ds : List RH) (reg : FmtReg) (k : String)
    (acc : Option (List String)) (s : List String),
    segsFold reg k acc ds = some s →
    ∀ x ∈ s, (∃ el ∈ ds, x = computeValue reg el) ∨ x ∈ acc.getD [] := by
  intro ds
  induction ds with
  | nil =>
    intro reg k acc s h x hx
    right
    simp only [segsFold, List.foldl_nil] at h
    rw [h]
    simpa using hx
  | cons el rest ih =>
    intro reg k acc s h x hx
    rw [show segsFold reg k acc (el :: rest)
        = segsFold reg k
            (some ((if k ∈ COMBINABLE_HEADERS then acc.getD [] else [])
              ++ [computeValue reg el])) rest from rfl] at h
    rcases ih reg k _ s h x hx with h1 | h1
    · obtain ⟨e, he, hxe⟩ := h1
      exact Or.inl ⟨e, List.mem_cons_of_mem el he, hxe⟩
    · simp only [Option.getD_some, List.mem_append, List.mem_singleton] at h1
      rcases h1 with h1 | h1
      · right
        by_cases hc : k ∈ COMBINABLE_HEADERS
        · rw [if_pos hc] at h1
          exact h1
        · rw [if_neg hc] at h1
          simp at h1
      · exact Or.inl ⟨el, List.mem_cons_self el rest, h1⟩

theorem assocGet_mem {α : Type} {m : List (String × α)} {k : String} {v : α}
    (h : assocGet m k = some v) : (k, v) ∈ m := by
  unfold assocGet at h
  cases hf : m.find? (fun p => p.1 == k) with
  | none => rw [hf] at h; simp at h
  | some p =>
    rw [hf] at h
    simp only [Option.map_some', Option.some.injEq] at h
    have hp := List.mem_of_find?_eq_some hf
    have hpk : p.1 = k := by simpa using List.find?_some hf
    have hpe : p = (k, v) := by
      cases p
      simp only at hpk h
      rw [hpk, h]
    rw [← hpe]
    exact hp

theorem mem_collectHeaders_keys (reg : FmtReg) (els : List RH) (k : String) :
    k ∈ (collectHeaders reg els).map Prod.fst
      ↔ k ≠ "" ∧ ∃ el ∈ els, (jsToLower el.header) = k := by
  rw [collectHeaders_keys]
  unfold firstOccurrences
  rw [mem_firstOccAux]
  simp only [List.mem_filter, List.mem_map, List.not_mem_nil, not_false_iff, and_true]
  constructor
  · rintro ⟨⟨el, hel, rfl⟩, hne⟩
    exact ⟨by simpa using hne, el, hel, rfl⟩
  · rintro ⟨hne, el, hel, rfl⟩
    exact ⟨⟨el, hel, rfl⟩, by simpa using hne⟩

theorem fdDelete_not_mem (fd : List (String × FieldValue)) (n : String) :
    n ∉ (fdDelete fd n).map Prod.fst := by
  unfold fdDelete
  simp only [List.mem_map, List.mem_filter]
  rintro ⟨p, ⟨_, hne⟩, rfl⟩
  simp at hne

theorem fdDelete_preserves_not_mem {fd : List (String × FieldValue)} {n : String}
    (m : String) (h : n ∉ fd.map Prod.fst) : n ∉ (fdDelete fd m).map Prod.fst := by
  unfold fdDelete
  simp only [List.mem_map, List.mem_filter]
  rintro ⟨p, ⟨hp, _⟩, rfl⟩
  exact h (List.mem_map_of_mem Prod.fst hp)

theorem foldl_fdDelete_preserves : ∀ (names : List String)
    (fd : List (String × FieldValue)) (n : String), n ∉ fd.map Prod.fst →
    n ∉ (names.foldl fdDelete fd).map Prod.fst := by
  intro names
  induction names with
  | nil => intro fd n h; exact h
  | cons m rest ih =>
    intro fd n h
    exact ih (fdDelete fd m) n (fdDelete_preserves_not_mem m h)

theorem foldl_fdDelete_not_mem : ∀ (names : List String)
    (fd : List (String × FieldValue)) (n : String), n ∈ names →
    n ∉ (names.foldl fdDelete fd).map Prod.fst := by
  intro names
  induction names with
  | nil => intro fd n h; simp at h
  | cons m rest ih =>
    intro fd n h
    rcases List.mem_cons.mp h with rfl | hmem
    · exact foldl_fdDelete_preserves rest (fdDelete fd n) n (fdDelete_not_mem fd n)
    · exact ih (fdDelete fd m) n hmem

theorem collectFormData_not_mem (f : Form) {n : String}
    (h : n ∈ getHeaderBoundFields f) : n ∉ (collectFormData f).map Prod.fst :=
  foldl_fdDelete_not_mem (getHeaderBoundFields f) (formDataOf f) n h

theorem buildRequest_query (reg : FmtReg) (f : Form) (sub : Option Submitter)
    (action : URLM) (h : effMethod f sub ∈ queryMethods) :
    buildRequest reg f sub action =
      { method := effMethod f sub, urlBase := action.base,
        urlSearch := (collectFormData f).map (fun p => (p.1, fieldQueryRepr p.2)),
        headers := collectHeaders reg f.rhs, body := none } := by
  simp only [buildRequest]
  rw [if_pos h]

theorem buildRequest_body (reg : FmtReg) (f : Form) (sub : Option Submitter)
    (action : URLM) (h : effMethod f sub ∉ queryMethods) :
    buildRequest reg f sub action =
      { method := effMethod f sub, urlBase := action.base, urlSearch := action.search,
        headers := collectHeaders reg f.rhs,
        body := some (encodeBody (collectFormData f) (effEnctype f sub)) } := by
  simp only [buildRequest]
  rw [if_neg h]

theorem bodyMethods_not_query {m : String}
    (h : m ∈ (["POST", "PUT", "PATCH"] : List String)) : m ∉ queryMethods := by
  fin_cases h <;> decide

theorem bodyFieldNames_sub (fd : List (String × FieldValue)) (e : String) :
    ∀ n, n ∈ bodyFieldNames (encodeBody fd e) → n ∈ fd.map Prod.fst := by
  intro n hn
  unfold encodeBody at hn
  by_cases h1 : e = "text/plain"
  · rw [if_pos h1] at hn
    simp [bodyFieldNames] at hn
  · rw [if_neg h1] at hn
    by_cases h2 : e = "application/x-www-form-urlencoded"
    · rw [if_pos h2] at hn
      simp only [bodyFieldNames, List.mem_map] at hn
      obtain ⟨p, hp, rfl⟩ := hn
      obtain ⟨q, hq, he⟩ := List.mem_filterMap.mp hp
      cases q with
      | mk qn qv =>
        cases qv with
        | text s =>
          simp only [Option.some.injEq] at he
          rw [← he]
          exact List.mem_map_of_mem Prod.fst hq
        | file _ => simp at he
    · rw [if_neg h2] at hn
      simpa [bodyFieldNames] using hn

/-- C4: for every value map from which the identifier `missing` is absent,
`interpolate` leaves the placeholder of `"pages=\x7bmissing\x7d"` verbatim in
the output (no error, no removal); and any computed header value whose
interpolation result is `"pages= "` — a bare `key=` followed by nothing
but whitespace, matching the suppression regex — is reduced by
`computeValue` to the empty string. -/
theorem interpolate_missing_verbatim_and_suppression (reg : FmtReg)
    (values : List (String × String)) (hmiss : objGet values "missing" = none) :
    interpolate reg "pages=\x7bmissing\x7d" values = "pages=\x7bmissing\x7d"
    ∧ (∀ rh : RH, interpolate reg rh.template rh.values = "pages= " →
        computeValue reg rh = "") := by
  refine ⟨interpolate_missing reg values hmiss, ?_⟩
  intro rh h
  simp only [computeValue]
  rw [h, if_neg (by decide)]

/-- Witness for C4: a concrete value map lacking `missing` leaves the
template unchanged, and a concrete declaration interpolating to
`"pages= "` computes the empty value. -/
theorem interpolate_missing_verbatim_witness :
    interpolate emptyReg "pages=\x7bmissing\x7d" [("p", "x")] = "pages=\x7bmissing\x7d"
    ∧ computeValue emptyReg
        (RH.mk "" "Range" "pages=\x7bp\x7d" [("p", " ")]) = "" := by
  constructor
  · exact (interpolate_missing_verbatim_and_suppression emptyReg [("p", "x")] (by decide)).1
  · exact (interpolate_missing_verbatim_and_suppression emptyReg [("p", "x")] (by decide)).2
      (RH.mk "" "Range" "pages=\x7bp\x7d" [("p", " ")]) (by decide)

/-- C8: doubled braces are protected before substitution and restored as
literal single braces afterwards: `interpolate "\x7b\x7bx\x7d\x7d"` yields
`"\x7bx\x7d"` for every value map (in particular when `x` is bound), and in
general every identifier-character string between escaped braces passes
through unsubstituted whatever the value map holds. -/
theorem interpolate_escaped_braces_round_trip (reg : FmtReg)
    (values : List (String × String)) :
    interpolate reg "\x7b\x7bx\x7d\x7d" values = "\x7bx\x7d"
    ∧ (∀ s : String, (∀ c ∈ s.data, isIdChar c = true) →
        interpolate reg ("\x7b\x7b" ++ s ++ "\x7d\x7d") values = "\x7b" ++ s ++ "\x7d") :=
  ⟨interpolate_escaped_x reg values, fun _ hid => interpolate_escaped_general reg values hid⟩

/-- Witness for C8 at a concrete identifier and a value map that binds it. -/
theorem interpolate_escaped_braces_witness :
    interpolate emptyReg ("\x7b\x7b" ++ "per" ++ "\x7d\x7d") [("per", "25")]
      = "\x7b" ++ "per" ++ "\x7d" :=
  (interpolate_escaped_braces_round_trip emptyReg [("per", "25")]).2 "per" (by decide)

theorem collectHeaders_keys_nodup (reg : FmtReg) (els : List RH) :
    ((collectHeaders reg els).map Prod.fst).Nodup := by
  rw [collectHeaders_keys]
  exact firstOccAux_nodup _ _

/-- C1: when exactly two declarations in the processed list carry the
lowercased header name `k`, yielding computed values `a` then `b`: if `k`
is in the fixed combinable set and both values are non-empty, the single
output entry for `k` has value `a ++ ", " ++ b`; if `k` is not
combinable, the entry's value is `b` alone — the later declaration fully
supersedes the earlier one, even when `b` is the empty string — and in
both cases the output has exactly one entry for `k`. -/
theorem collectHeaders_combinable_join_replace_last (reg : FmtReg) (els : List RH)
    (d1 d2 : RH) (k a b : String) (hk : k ≠ "")
    (hf : els.filter (fun el => (jsToLower el.header) == k) = [d1, d2])
    (ha : computeValue reg d1 = a) (hb : computeValue reg d2 = b) :
    (k ∈ COMBINABLE_HEADERS → a ≠ "" → b ≠ "" →
      assocGet (collectHeaders reg els) k = some (a ++ ", " ++ b))
    ∧ (k ∉ COMBINABLE_HEADERS → assocGet (collectHeaders reg els) k = some b)
    ∧ ((collectHeaders reg els).map Prod.fst).count k = 1 := by
  have hget : assocGet (collectHeaders reg els) k
      = (segsFold reg k none [d1, d2]).map
          (fun segs => joinComma (segs.filter (fun x => x ≠ ""))) := by
    rw [collectHeaders_get, collectHeadersAux_get reg hk els [], hf]
    rfl
  have hd1f : d1 ∈ els.filter (fun el => (jsToLower el.header) == k) := by
    rw [hf]
    exact List.mem_cons_self _ _
  have hmem : k ∈ (collectHeaders reg els).map Prod.fst := by
    rw [mem_collectHeaders_keys]
    exact ⟨hk, d1, List.mem_of_mem_filter hd1f, by simpa using (List.mem_filter.mp hd1f).2⟩
  refine ⟨?_, ?_, ?_⟩
  · intro hcomb hA hB
    rw [hget]
    simp only [segsFold, List.foldl_cons, List.foldl_nil, if_pos hcomb,
      Option.getD_none, Option.getD_some, List.nil_append, Option.map_some']
    rw [ha, hb]
    simp [joinComma, hA, hB]
  · intro hcomb
    rw [hget]
    simp only [segsFold, List.foldl_cons, List.foldl_nil, if_neg hcomb,
      Option.getD_none, Option.getD_some, List.nil_append, Option.map_some']
    rw [hb]
    by_cases hB : b = ""
    · subst hB
      simp [joinComma]
    · simp [joinComma, hB]
  · exact List.count_eq_one_of_mem (collectHeaders_keys_nodup reg els) hmem

/-- Witness for C1: two combinable `Prefer` declarations merge into the
comma-joined value. -/
theorem collectHeaders_combinable_witness :
    assocGet (collectHeaders emptyReg
      [RH.mk "" "Prefer" "view=list" [], RH.mk "" "Prefer" "wait=30" []]) "prefer"
      = some ("view=list" ++ ", " ++ "wait=30") :=
  (collectHeaders_combinable_join_replace_last emptyReg
    [RH.mk "" "Prefer" "view=list" [], RH.mk "" "Prefer" "wait=30" []]
    (RH.mk "" "Prefer" "view=list" []) (RH.mk "" "Prefer" "wait=30" [])
    "prefer" "view=list" "wait=30" (by decide) (by decide) (by decide) (by decide)).1
    (by decide) (by decide) (by decide)

/-- C5: the output of `collectHeaders` has exactly one entry per distinct
lowercased header name declared with a non-empty name, in order of first
declaration; a name declared at least once is present even when every one
of its computed segments is the empty string, in which case its entry
carries the empty value. -/
theorem collectHeaders_one_entry_per_name_in_order (reg : FmtReg) (els : List RH) :
    ((collectHeaders reg els).map Prod.fst
      = firstOccurrences ((els.map (fun el => (jsToLower el.header))).filter
          (fun h => h ≠ "")))
    ∧ ((collectHeaders reg els).map Prod.fst).Nodup
    ∧ (∀ k, k ∈ (collectHeaders reg els).map Prod.fst
        ↔ k ≠ "" ∧ ∃ el ∈ els, (jsToLower el.header) = k)
    ∧ (∀ k, k ≠ "" → (∃ el ∈ els, (jsToLower el.header) = k) →
        (∀ el ∈ els, (jsToLower el.header) = k → computeValue reg el = "") →
        (k, "") ∈ collectHeaders reg els) := by
  refine ⟨collectHeaders_keys reg els, collectHeaders_keys_nodup reg els,
    mem_collectHeaders_keys reg els, ?_⟩
  intro k hk hex hall
  have hmem : k ∈ (collectHeaders reg els).map Prod.fst :=
    (mem_collectHeaders_keys reg els k).mpr ⟨hk, hex⟩
  have hget : assocGet (collectHeaders reg els) k
      = (assocGet (collectHeadersAux reg [] els) k).map
          (fun segs => joinComma (segs.filter (fun x => x ≠ ""))) :=
    collectHeaders_get reg els k
  cases hsome : assocGet (collectHeaders reg els) k with
  | none => exact absurd ((assocGet_eq_none_iff _ _).mp hsome) (by simpa using hmem)
  | some v =>
    have hv : v = "" := by
      rw [hget] at hsome
      cases haux : assocGet (collectHeadersAux reg [] els) k with
      | none =>
        rw [haux] at hsome
        simp at hsome
      | some segs =>
        rw [haux] at hsome
        simp only [Option.map_some', Option.some.injEq] at hsome
        have hsegs : segsFold reg k none
            (els.filter (fun el => (jsToLower el.header) == k)) = some segs := by
          have h1 := collectHeadersAux_get reg hk els []
          rw [haux] at h1
          exact h1.symm
        have hall2 : ∀ x ∈ segs, x = "" := by
          intro x hx
          rcases segsFold_mem _ reg k none segs hsegs x hx with ⟨el, hel, hxel⟩ | hfalse
          · have h2 : (jsToLower el.header) = k := by
              simpa using (List.mem_filter.mp hel).2
            rw [hxel]
            exact hall el (List.mem_of_mem_filter hel) h2
          · simp at hfalse
        have hfil : segs.filter (fun x => x ≠ "") = [] := by
          rw [List.filter_eq_nil_iff]
          intro x hx
          simp [hall2 x hx]
        rw [← hsome, hfil]
        rfl
    rw [hv] at hsome
    exact assocGet_mem hsome

/-- Witness for C5: a declaration whose computed value is empty still
emits its header with an empty value, and keys appear in first-declared
order. -/
theorem collectHeaders_one_entry_witness :
    ("x-a", "") ∈ collectHeaders emptyReg [RH.mk "" "X-A" "" []]
    ∧ (collectHeaders emptyReg
        [RH.mk "" "X-A" "" [], RH.mk "" "Range" "r=1" []]).map Prod.fst
      = ["x-a", "range"] := by
  constructor
  · exact (collectHeaders_one_entry_per_name_in_order emptyReg
      [RH.mk "" "X-A" "" []]).2.2.2 "x-a" (by decide)
      ⟨RH.mk "" "X-A" "" [], by decide, by decide⟩ (by decide)
  · rw [(collectHeaders_one_entry_per_name_in_order emptyReg
      [RH.mk "" "X-A" "" [], RH.mk "" "Range" "r=1" []]).1]
    decide

/-- C2: field routing by method: for effective method GET, HEAD or
DELETE every free (non-header-bound) field appears in the request URL's
query pairs (file values by their filename) and the request has no
body; for POST, PUT or PATCH the free fields are encoded only into the
body per the effective enctype while the query is the action's search
component, untouched by any field. -/
theorem buildRequest_routes_by_method (reg : FmtReg) (f : Form)
    (sub : Option Submitter) (action : URLM) :
    (effMethod f sub ∈ queryMethods →
      (buildRequest reg f sub action).urlSearch
          = (collectFormData f).map (fun p => (p.1, fieldQueryRepr p.2))
      ∧ (∀ p ∈ collectFormData f,
          (p.1, fieldQueryRepr p.2) ∈ (buildRequest reg f sub action).urlSearch)
      ∧ (buildRequest reg f sub action).body = none)
    ∧ (effMethod f sub ∈ (["POST", "PUT", "PATCH"] : List String) →
      (buildRequest reg f sub action).body
          = some (encodeBody (collectFormData f) (effEnctype f sub))
      ∧ (buildRequest reg f sub action).urlSearch = action.search) := by
  constructor
  · intro h
    rw [buildRequest_query reg f sub action h]
    refine ⟨rfl, ?_, rfl⟩
    intro p hp
    exact List.mem_map_of_mem _ hp
  · intro h
    rw [buildRequest_body reg f sub action (bodyMethods_not_query h)]
    exact ⟨rfl, rfl⟩

/-- Witness for C2 on a concrete GET form and a concrete POST form with
one free field each. -/
theorem buildRequest_routes_witness :
    (buildRequest emptyReg
        (Form.mk [] [Input.mk "view" (FieldValue.text "list") none none] "get" "" false)
        none (URLM.mk "/items" [])).urlSearch = [("view", "list")]
    ∧ (buildRequest emptyReg
        (Form.mk [] [Input.mk "view" (FieldValue.text "list") none none] "post" "" false)
        none (URLM.mk "/items" [])).body
      = some (encodeBody [("view", FieldValue.text "list")]
          "application/x-www-form-urlencoded") := by
  constructor
  · have h := (buildRequest_routes_by_method emptyReg
      (Form.mk [] [Input.mk "view" (FieldValue.text "list") none none] "get" "" false)
      none (URLM.mk "/items" [])).1 (by decide)
    rw [h.1]
    decide
  · have h := (buildRequest_routes_by_method emptyReg
      (Form.mk [] [Input.mk "view" (FieldValue.text "list") none none] "post" "" false)
      none (URLM.mk "/items" [])).2 (by decide)
    rw [h.1]
    decide

/-- C3: a field whose name is bound to at least one header declaration
(by containment in the declaration fieldset or by a `for=` link to its
id) is deleted from the routed form data, hence absent from the query
pairs of a query-routed request and from the pair-level content of every
encoded body, no matter how many declarations reference it. -/
theorem headerBound_field_excluded (reg : FmtReg) (f : Form)
    (sub : Option Submitter) (action : URLM) (n : String)
    (h : n ∈ getHeaderBoundFields f) :
    n ∉ (collectFormData f).map Prod.fst
    ∧ (effMethod f sub ∈ queryMethods →
        n ∉ (buildRequest reg f sub action).urlSearch.map Prod.fst
        ∧ (buildRequest reg f sub action).body = none)
    ∧ (effMethod f sub ∉ queryMethods →
        (buildRequest reg f sub action).urlSearch = action.search
        ∧ (buildRequest reg f sub action).body
            = some (encodeBody (collectFormData f) (effEnctype f sub)))
    ∧ (∀ e, n ∉ bodyFieldNames (encodeBody (collectFormData f) e)) := by
  have hn := collectFormData_not_mem f h
  refine ⟨hn, ?_, ?_, ?_⟩
  · intro hq
    rw [buildRequest_query reg f sub action hq]
    refine ⟨?_, rfl⟩
    have he : ((collectFormData f).map (fun p => (p.1, fieldQueryRepr p.2))).map Prod.fst
        = (collectFormData f).map Prod.fst := by
      rw [List.map_map]
      rfl
    simp only [he]
    exact hn
  · intro hnq
    rw [buildRequest_body reg f sub action hnq]
    exact ⟨rfl, rfl⟩
  · intro e hmem
    exact hn (bodyFieldNames_sub (collectFormData f) e n hmem)

/-- Witness for C3: a field contained in a `request-header` fieldset is
removed from the routed data while a free field stays. -/
theorem headerBound_field_excluded_witness :
    "p" ∉ (collectFormData (Form.mk [RH.mk "h1" "Range" "p=\x7bp\x7d" [("p", "1")]]
      [Input.mk "p" (FieldValue.text "1") none (some 0),
       Input.mk "view" (FieldValue.text "list") none none] "get" "" false)).map Prod.fst :=
  (headerBound_field_excluded emptyReg
    (Form.mk [RH.mk "h1" "Range" "p=\x7bp\x7d" [("p", "1")]]
      [Input.mk "p" (FieldValue.text "1") none (some 0),
       Input.mk "view" (FieldValue.text "list") none none] "get" "" false)
    none (URLM.mk "/x" []) "p" (by decide)).1

/-- C10: every effective method other than GET, HEAD and DELETE —
nonstandard methods included, not only POST, PUT and PATCH — takes the
body branch: the free fields are encoded per the effective enctype and
the action URL's search component is left unmodified. -/
theorem buildRequest_nonquery_methods_use_body (reg : FmtReg) (f : Form)
    (sub : Option Submitter) (action : URLM)
    (h : effMethod f sub ∉ queryMethods) :
    (buildRequest reg f sub action).body
        = some (encodeBody (collectFormData f) (effEnctype f sub))
    ∧ (buildRequest reg f sub action).urlSearch = action.search := by
  rw [buildRequest_body reg f sub action h]
  exact ⟨rfl, rfl⟩

/-- Witness for C10 at the nonstandard submitter method `brew`. -/
theorem buildRequest_nonquery_witness :
    (buildRequest emptyReg
        (Form.mk [] [Input.mk "q" (FieldValue.text "1") none none] "get" "" false)
        (some (Submitter.mk "brew" "" false)) (URLM.mk "/b" [("old", "1")])).body
      = some (encodeBody [("q", FieldValue.text "1")]
          "application/x-www-form-urlencoded")
    ∧ (buildRequest emptyReg
        (Form.mk [] [Input.mk "q" (FieldValue.text "1") none none] "get" "" false)
        (some (Submitter.mk "brew" "" false)) (URLM.mk "/b" [("old", "1")])).urlSearch
      = [("old", "1")] := by
  have h := buildRequest_nonquery_methods_use_body emptyReg
    (Form.mk [] [Input.mk "q" (FieldValue.text "1") none none] "get" "" false)
    (some (Submitter.mk "brew" "" false)) (URLM.mk "/b" [("old", "1")]) (by decide)
  constructor
  · rw [h.1]
    decide
  · rw [h.2]

/-- C6: when neither form-level novalidate nor submitter-level
formnovalidate is set and the native constraint check fails,
requestSubmit reports the invalid state to the user and the attempt
ends: no request descriptor is built, no submit event is fired, no
fetch is started, and preparedRequest is left untouched. -/
theorem requestSubmit_validation_failure_aborts (reg : FmtReg) (f : Form)
    (sub : Option Submitter) (action : URLM) (lc : Bool) (prev : Option RequestM)
    (h : noValidateEff f sub = false) :
    requestSubmit reg f sub action false lc prev
      = SubmitResult.mk true none none none prev prev := by
  unfold requestSubmit
  rw [h]
  rw [if_pos ⟨rfl, rfl⟩]

/-- Witness for C6 on a concrete validating form whose check fails. -/
theorem requestSubmit_validation_failure_witness :
    requestSubmit emptyReg (Form.mk [] [] "get" "" false) none (URLM.mk "/x" [])
        false false none
      = SubmitResult.mk true none none none none none :=
  requestSubmit_validation_failure_aborts emptyReg (Form.mk [] [] "get" "" false)
    none (URLM.mk "/x" []) false none (by decide)

/-- C7: whenever requestSubmit reaches the dispatch step, the cancelable
submit event carries the built descriptor; a cancelling listener
prevents the fetch and the descriptor is discarded, and with no
cancelling listener the fetch starts with that exact descriptor — the
synchronous dispatch is the pipeline's only cancellation point. -/
theorem requestSubmit_cancel_only_at_dispatch (reg : FmtReg) (f : Form)
    (sub : Option Submitter) (action : URLM) (validityOK lc : Bool)
    (prev : Option RequestM)
    (h : noValidateEff f sub = true ∨ validityOK = true) :
    (requestSubmit reg f sub action validityOK lc prev).firedEvent
        = some (buildRequest reg f sub action)
    ∧ (requestSubmit reg f sub action validityOK lc prev).preparedDuringDispatch
        = some (buildRequest reg f sub action)
    ∧ (lc = true →
        (requestSubmit reg f sub action validityOK lc prev).fetchStarted = none
        ∧ (requestSubmit reg f sub action validityOK lc prev).preparedAfter = none)
    ∧ (lc = false →
        (requestSubmit reg f sub action validityOK lc prev).fetchStarted
          = some (buildRequest reg f sub action)) := by
  have hcond : ¬((!noValidateEff f sub) = true ∧ validityOK = false) := by
    rcases h with h | h <;> simp [h]
  unfold requestSubmit
  rw [if_neg hcond]
  refine ⟨rfl, rfl, ?_, ?_⟩
  · rintro rfl
    exact ⟨rfl, rfl⟩
  · rintro rfl
    rfl

/-- Witness for C7: a cancelling listener on a concrete valid form
leaves the fetch unstarted. -/
theorem requestSubmit_cancel_witness :
    (requestSubmit emptyReg (Form.mk [] [] "get" "" false) none (URLM.mk "/x" [])
        true true none).fetchStarted = none :=
  ((requestSubmit_cancel_only_at_dispatch emptyReg (Form.mk [] [] "get" "" false)
    none (URLM.mk "/x" []) true true none (Or.inr rfl)).2.2.1 rfl).1

/-- C9: with preparedRequest null on entry (its initialized steady
state), requestSubmit returns with preparedRequest null on every path —
validation failure, listener cancellation, or fetch started — and holds
the built descriptor exactly while the submit event is dispatched; the
plain submit path never touches preparedRequest at all. -/
theorem preparedRequest_null_after_return (reg : FmtReg) (f : Form)
    (sub : Option Submitter) (action : URLM) (validityOK lc : Bool) :
    (requestSubmit reg f sub action validityOK lc none).preparedAfter = none
    ∧ ((requestSubmit reg f sub action validityOK lc none).firedEvent = none →
        (requestSubmit reg f sub action validityOK lc none).preparedDuringDispatch
          = none)
    ∧ (∀ q, (requestSubmit reg f sub action validityOK lc none).firedEvent = some q →
        (requestSubmit reg f sub action validityOK lc none).preparedDuringDispatch
          = some q)
    ∧ (∀ prev, (submitPlain reg f sub action prev).preparedAfter = prev
        ∧ (submitPlain reg f sub action prev).preparedDuringDispatch = prev) := by
  unfold requestSubmit
  by_cases hc : (!noValidateEff f sub) = true ∧ validityOK = false
  · rw [if_pos hc]
    exact ⟨rfl, fun _ => rfl, fun q hq => by simp at hq, fun prev => ⟨rfl, rfl⟩⟩
  · rw [if_neg hc]
    exact ⟨rfl, fun hq => by simp at hq, fun q hq => hq, fun prev => ⟨rfl, rfl⟩⟩

/-- Witness for C9: preparedRequest is null after a completed submit and
untouched by the plain submit path. -/
theorem preparedRequest_null_witness :
    (requestSubmit emptyReg (Form.mk [] [] "get" "" false) none (URLM.mk "/x" [])
        true false none).preparedAfter = none
    ∧ (submitPlain emptyReg (Form.mk [] [] "get" "" false) none (URLM.mk "/x" [])
        none).preparedAfter = none := by
  have h := preparedRequest_null_after_return emptyReg (Form.mk [] [] "get" "" false)
    none (URLM.mk "/x" []) true false
  exact ⟨h.1, (h.2.2.2 none).1⟩
